import Mathlib

/-!
Shallow embedding of the diff-parsing, batching, filtering, merging and
review-payload logic of the ai-pr-reviewer repository (src/utils.ts,
src/arch-review.ts, src/reporter.ts), together with theorems settling the
frozen claims about that code.

JavaScript strings are modelled as Lean `String` values; all string
operations used by the code (`split("\n")`, `startsWith`, `join`,
concatenation, `.length`, `slice`) are defined below on the underlying
character list, mirroring the JavaScript semantics for newline-free /
ASCII-clean inputs. JavaScript `Map`/`Set` are modelled as insertion-ordered
association lists / duplicate-free lists, matching the observable behaviour
(membership, first-binding lookup) of the mutating originals.
-/

set_option maxRecDepth 8192

namespace PrReviewer

/-- Splits a character list at every occurrence of the separator
character, JavaScript `string.split(sep)` semantics for a one-character
separator: the result is always non-empty and an empty input yields one
empty piece. -/
def splitOnCharList (sep : Char) : List Char → List (List Char)
  | [] => [[]]
  | c :: cs =>
    match splitOnCharList sep cs with
    | [] => [[]]
    | r :: rs => if c = sep then [] :: r :: rs else (c :: r) :: rs

/-- Splitting at newline characters, used to model `diff.split("\n")`. -/
def splitLinesList : List Char → List (List Char) := splitOnCharList '\n'

/-- JavaScript `diff.split("\n")` on a Lean `String`. -/
def splitLines (s : String) : List String :=
  (splitLinesList s.data).map String.mk

/-- JavaScript `Array.prototype.join(sep)` on a list of strings. -/
def strJoin (sep : String) : List String → String
  | [] => ""
  | [x] => x
  | x :: xs => x ++ sep ++ strJoin sep xs

/-- JavaScript `string.startsWith(p)` (true prefix test on characters). -/
def startsWithLit : List Char → List Char → Bool
  | [], _ => true
  | _ :: _, [] => false
  | p :: ps, c :: cs => p = c && startsWithLit ps cs

/-- Character class of the JavaScript regex `.` without the `s` flag,
restricted to the characters that can actually occur in a line produced by
`split("\n")`: everything except a newline or carriage return. -/
def isDotChar (c : Char) : Bool := c != '\n' && c != '\r'

/-- Backtracking search for the regex fragment `.* b\/(.+)$`: returns the
split with the longest possible prefix (greedy `.*`) such that the prefix
consists of dot-characters, the literal separator `" b/"` follows, and the
capture (everything after the separator) is non-empty and all
dot-characters. The prefix may be empty here; the caller enforces the `.+`
non-emptiness of the full regex. -/
def bestSplit0 : List Char → Option (List Char × List Char)
  | [] => none
  | c :: cs =>
    match (if isDotChar c then bestSplit0 cs else none) with
    | some (p, cap) => some (c :: p, cap)
    | none =>
      if startsWithLit [' ', 'b', '/'] (c :: cs) then
        let cap := (c :: cs).drop 3
        if !cap.isEmpty && cap.all isDotChar then some ([], cap) else none
      else none

/-- The regex `/^diff --git a\/.+ b\/(.+)$/` of `parseDiffValidLines` and
`splitDiffByFile` in src/utils.ts: on a match, returns the capture (the
new-file path). -/
def matchFileHeader (line : String) : Option String :=
  if startsWithLit "diff --git a/".data line.data then
    match bestSplit0 (line.data.drop 13) with
    | some (p, cap) => if p.isEmpty then none else some (String.mk cap)
    | none => none
  else none

/-- Digit run value, JavaScript `parseInt(digits, 10)` on a pure digit
string (exact arithmetic; the float imprecision of extremely long digit
runs is not modelled). -/
def digitsToNat (ds : List Char) : Nat :=
  ds.foldl (fun a c => 10 * a + (c.toNat - '0'.toNat)) 0

/-- The optional regex fragment `(?:,\d+)?` followed by mandatory further
input: consumes `,digits` when present; a comma not followed by a digit
makes the whole match fail (the following mandatory literal cannot start
with a comma). -/
def afterComma (r : List Char) : Option (List Char) :=
  match r with
  | ',' :: r2 =>
    let s := r2.span Char.isDigit
    if s.1.isEmpty then none else some s.2
  | _ => some r

/-- The regex `/^@@ -\d+(?:,\d+)? \+(\d+)(?:,(\d+))? @@/` of
`parseDiffValidLines` in src/utils.ts: on a match, returns capture 1 (the
new-start line number) and capture 2 (the declared new-line count) when
present. The regex is not end-anchored. -/
def matchHunkHeaderParts (line : String) : Option (Nat × Option Nat) :=
  if startsWithLit "@@ -".data line.data then
    let r0 := line.data.drop 4
    let s1 := r0.span Char.isDigit
    if s1.1.isEmpty then none else
    match afterComma s1.2 with
    | none => none
    | some r3 =>
      match r3 with
      | ' ' :: '+' :: r4 =>
        let s2 := r4.span Char.isDigit
        if s2.1.isEmpty then none else
        let rest :=
          match s2.2 with
          | ',' :: r5b =>
            let sc := r5b.span Char.isDigit
            if sc.1.isEmpty then none else some (some (digitsToNat sc.1), sc.2)
          | r5 => some (none, r5)
        match rest with
        | none => none
        | some (count, r8) =>
          if startsWithLit " @@".data r8 then some (digitsToNat s2.1, count)
          else none
      | _ => none
  else none

/-- Capture 1 of the hunk-header regex: the seed for the new-file line
cursor (`parseInt(hunkMatch[1], 10)` at src/utils.ts:124). -/
def matchHunkHeader (line : String) : Option Nat :=
  (matchHunkHeaderParts line).map Prod.fst

/-- Capture 2 of the hunk-header regex: the declared new-line count of the
hunk. The source captures it but never reads it; it is needed here only to
state the well-formedness hypothesis of claim C3. -/
def hunkNewCount (line : String) : Option Nat :=
  (matchHunkHeaderParts line).bind Prod.snd

/-- A JavaScript `Set<number>` restricted to its observable behaviour:
insertion-ordered list without duplicates. -/
abbrev LineSet := List Nat

/-- JavaScript `Set.prototype.add`. -/
def LineSet.add (s : LineSet) (n : Nat) : LineSet :=
  if n ∈ s then s else s ++ [n]

/-- A JavaScript `Map<string, Set<number>>`: insertion-ordered association
list; keys are unique by construction (insertion is guarded by `hasKey`). -/
abbrev FileMap := List (String × LineSet)

/-- JavaScript `Map.prototype.has`. -/
def FileMap.hasKey (m : FileMap) (k : String) : Bool :=
  m.any (fun e => e.1 = k)

/-- JavaScript `Map.prototype.get` (first binding). -/
def FileMap.get? (m : FileMap) (k : String) : Option LineSet :=
  (m.find? (fun e => e.1 = k)).map Prod.snd

/-- In-place mutation `result.get(currentFile)!.add(n)`: adds `n` to the
set bound to key `k` (a no-op on maps without the key, which the source
code never reaches). -/
def FileMap.addLine (m : FileMap) (k : String) (n : Nat) : FileMap :=
  m.map (fun e => if e.1 = k then (e.1, e.2.add n) else e)

/-- The loop state of `parseDiffValidLines` (src/utils.ts:104-107). -/
structure ParseState where
  result : FileMap
  currentFile : Option String
  newLine : Nat
  inHunk : Bool
deriving Repr, DecidableEq

/-- One iteration of the `for (const line of diff.split("\n"))` loop of
`parseDiffValidLines` (src/utils.ts:109-148), branch for branch. -/
def parseStep (st : ParseState) (line : String) : ParseState :=
  match matchFileHeader line with
  | some f =>
    { result := if FileMap.hasKey st.result f then st.result
                else st.result ++ [(f, [])]
      currentFile := some f
      newLine := st.newLine
      inHunk := false }
  | none =>
    match matchHunkHeader line, st.currentFile with
    | some n, some _ => { st with newLine := n, inHunk := true }
    | _, _ =>
      if !st.inHunk || st.currentFile.isNone then st
      else
        match st.currentFile with
        | none => st
        | some cf =>
          if startsWithLit ['+'] line.data then
            { st with result := FileMap.addLine st.result cf st.newLine
                      newLine := st.newLine + 1 }
          else if startsWithLit ['-'] line.data then st
          else if startsWithLit [' '] line.data then
            { st with result := FileMap.addLine st.result cf st.newLine
                      newLine := st.newLine + 1 }
          else if startsWithLit ['\\'] line.data then st
          else { st with inHunk := false }

/-- `parseDiffValidLines` (src/utils.ts:103-151): maps each changed file to
the set of new-file line numbers lying inside a diff hunk. -/
def parseDiffValidLines (diff : String) : FileMap :=
  ((splitLines diff).foldl parseStep
    { result := [], currentFile := none, newLine := 0, inHunk := false }).result

/-- A single file's portion of a unified diff (src/utils.ts:173-176). -/
structure FileDiff where
  file : String
  content : String
deriving Repr, DecidableEq

/-- The loop state of `splitDiffByFile` (src/utils.ts:186-187). -/
structure SplitState where
  files : List FileDiff
  currentFile : Option String
  currentLines : List String
deriving Repr, DecidableEq

/-- Flushing the accumulated file (src/utils.ts:192-195 and 203-206). -/
def splitFlush (st : SplitState) : List FileDiff :=
  match st.currentFile with
  | some cf =>
    if st.currentLines.isEmpty then st.files
    else st.files ++ [⟨cf, strJoin "\n" st.currentLines⟩]
  | none => st.files

/-- One iteration of the line loop of `splitDiffByFile`
(src/utils.ts:189-201). -/
def splitStep (st : SplitState) (line : String) : SplitState :=
  match matchFileHeader line with
  | some f => { files := splitFlush st, currentFile := some f, currentLines := [line] }
  | none => { st with currentLines := st.currentLines ++ [line] }

/-- `splitDiffByFile` (src/utils.ts:182-209): splits a unified diff into
per-file entries, each carrying its `diff --git` header. -/
def splitDiffByFile (diff : String) : List FileDiff :=
  splitFlush ((splitLines diff).foldl splitStep
    { files := [], currentFile := none, currentLines := [] })

/-- The loop state of `batchDiffChunks` (src/utils.ts:220-222): the already
flushed batches, the contents accumulated in the current batch, and the
running character count. -/
structure BatchState where
  batches : List String
  current : List String
  size : Nat
deriving Repr, DecidableEq

/-- One iteration of the fragment loop of `batchDiffChunks`
(src/utils.ts:224-243). -/
def batchStep (maxCharsPerBatch : Nat) (st : BatchState) (fd : FileDiff) : BatchState :=
  let entrySize := fd.content.length
  let st1 :=
    if !st.current.isEmpty && maxCharsPerBatch < st.size + entrySize then
      { batches := st.batches ++ [strJoin "\n" st.current], current := [], size := 0 }
    else st
  let st2 := { st1 with current := st1.current ++ [fd.content], size := st1.size + entrySize }
  if maxCharsPerBatch < entrySize then
    { batches := st2.batches ++ [strJoin "\n" st2.current], current := [], size := 0 }
  else st2

/-- `batchDiffChunks` (src/utils.ts:216-251): packs per-file diffs into
batches of at most `maxCharsPerBatch` characters, flushing an oversized
file immediately as a solo batch. The source default for
`maxCharsPerBatch` is 30000. -/
def batchDiffChunks (fileDiffs : List FileDiff) (maxCharsPerBatch : Nat) : List String :=
  let st := fileDiffs.foldl (batchStep maxCharsPerBatch)
    { batches := [], current := [], size := 0 }
  if st.current.isEmpty then st.batches else st.batches ++ [strJoin "\n" st.current]

/-- Companion of `batchStep` that keeps each batch as the list of fragment
contents instead of the joined string; used to reason about batch
structure. -/
structure BatchStateG where
  batches : List (List String)
  current : List String
  size : Nat
deriving Repr, DecidableEq

/-- Group-level version of `batchStep`. -/
def batchStepG (maxCharsPerBatch : Nat) (st : BatchStateG) (fd : FileDiff) : BatchStateG :=
  let entrySize := fd.content.length
  let st1 :=
    if !st.current.isEmpty && maxCharsPerBatch < st.size + entrySize then
      { batches := st.batches ++ [st.current], current := [], size := 0 }
    else st
  let st2 := { st1 with current := st1.current ++ [fd.content], size := st1.size + entrySize }
  if maxCharsPerBatch < entrySize then
    { batches := st2.batches ++ [st2.current], current := [], size := 0 }
  else st2

/-- Group-level version of `batchDiffChunks`: the same greedy packing, but
each batch is returned as the list of fragment contents it joins. -/
def batchGroups (fileDiffs : List FileDiff) (maxCharsPerBatch : Nat) : List (List String) :=
  let st := fileDiffs.foldl (batchStepG maxCharsPerBatch)
    { batches := [], current := [], size := 0 }
  if st.current.isEmpty then st.batches else st.batches ++ [st.current]

/-- Severity of a code-review finding (src/types.ts:65). -/
inductive Severity | critical | warning | suggestion | nitpick
deriving Repr, DecidableEq

/-- A single finding from the AI review (src/types.ts:62-69). -/
structure ReviewFinding where
  file : String
  line : Nat
  severity : Severity
  title : String
  body : String
  suggestion : Option String
deriving Repr, DecidableEq

/-- Review verdict (src/types.ts:75). -/
inductive Verdict | approve | request_changes | comment
deriving Repr, DecidableEq

/-- Structured output from the AI review (src/types.ts:72-76). -/
structure ReviewOutput where
  summary : String
  findings : List ReviewFinding
  verdict : Verdict
deriving Repr, DecidableEq

/-- Result from running tests or linting (src/types.ts:52-59). The `step`
and `summarizedOutput` fields are not read by the reporter and are
omitted; `duration` is in milliseconds. -/
structure StepResult where
  success : Bool
  output : String
  duration : Nat
deriving Repr, DecidableEq

/-- Severity of an architecture violation (src/types.ts:138). -/
inductive ArchSeverity | critical | warning | suggestion
deriving Repr, DecidableEq

/-- Category of an architecture violation (src/types.ts:127-131). -/
inductive ArchCategory
  | layer_violation | naming_convention | design_pattern | circular_dependency
deriving Repr, DecidableEq

/-- A single architecture conformance violation (src/types.ts:134-142). -/
structure ArchViolation where
  file : String
  line : Nat
  category : ArchCategory
  severity : ArchSeverity
  rule : String
  description : String
  suggestion : String
deriving Repr, DecidableEq

/-- Structured output from the architecture review (src/types.ts:145-149).
`conformance_score` is an integer because the sentinel value -1 is used
for "could not be determined". -/
structure ArchReviewOutput where
  summary : String
  conformance_score : Int
  violations : List ArchViolation
deriving Repr, DecidableEq

/-- A GitHub PR review inline comment (src/types.ts:79-83). -/
structure GitHubReviewComment where
  path : String
  line : Nat
  body : String
deriving Repr, DecidableEq

/-- Review event of the payload (src/types.ts:87). -/
inductive ReviewEvent | APPROVE | REQUEST_CHANGES | COMMENT
deriving Repr, DecidableEq

/-- Full GitHub PR review payload (src/types.ts:86-90). -/
structure GitHubReviewPayload where
  event : ReviewEvent
  body : String
  comments : List GitHubReviewComment
deriving Repr, DecidableEq

/-- A changed file of the PR metadata (src/types.ts:21-25). -/
structure PrFile where
  path : String
  additions : Nat
  deletions : Nat
deriving Repr, DecidableEq

/-- PR metadata (src/types.ts:10-19); `buildReviewPayload` receives it but
never reads it. -/
structure PrMetadata where
  title : String
  body : String
  baseRefName : String
  headRefName : String
  headRefOid : String
  files : List PrFile
deriving Repr, DecidableEq

/-- `mergeArchReviews` (src/arch-review.ts:339-357): concatenates
violations, joins the non-empty summaries with a blank line, and keeps the
smallest non-negative conformance score, starting from 100. -/
def mergeArchReviews (results : List ArchReviewOutput) : ArchReviewOutput :=
  { summary := strJoin "\n\n"
      (results.filterMap (fun r => if r.summary = "" then none else some r.summary))
    conformance_score := results.foldl
      (fun worst r =>
        if 0 ≤ r.conformance_score ∧ r.conformance_score < worst then
          r.conformance_score
        else worst) 100
    violations := results.foldl (fun acc r => acc ++ r.violations) [] }

/-- `truncate` (src/utils.ts:158-168): keeps the first and last
`(maxLen - 40) / 2` characters around a truncation marker. The source
default for `maxLen` is 5000. -/
def truncate (text : String) (maxLen : Nat) : String :=
  if text.length ≤ maxLen then text
  else
    let half := (maxLen - 40) / 2
    String.mk (text.data.take half) ++
    "\n\n... [truncated " ++ toString (text.length - maxLen) ++ " chars] ...\n\n" ++
    String.mk (text.data.drop (text.length - half))

/-- Severity icon table `SEVERITY_ICON` (src/reporter.ts:16-21). -/
def severityIcon : Severity → String
  | .critical => "🔴"
  | .warning => "🟡"
  | .suggestion => "🔵"
  | .nitpick => "⚪"

/-- The literal severity string as interpolated by the source. -/
def severityUpper : Severity → String
  | .critical => "CRITICAL"
  | .warning => "WARNING"
  | .suggestion => "SUGGESTION"
  | .nitpick => "NITPICK"

/-- Arch severity icon table `ARCH_SEVERITY_ICON` (src/reporter.ts:23-27). -/
def archSeverityIcon : ArchSeverity → String
  | .critical => "🔴"
  | .warning => "🟡"
  | .suggestion => "🔵"

/-- The literal arch severity string as interpolated by the source. -/
def archSeverityStr : ArchSeverity → String
  | .critical => "critical"
  | .warning => "warning"
  | .suggestion => "suggestion"

/-- Upper-cased arch severity as interpolated by the source. -/
def archSeverityUpper : ArchSeverity → String
  | .critical => "CRITICAL"
  | .warning => "WARNING"
  | .suggestion => "SUGGESTION"

/-- Category label table `ARCH_CATEGORY_LABEL` (src/reporter.ts:29-34). -/
def archCategoryLabel : ArchCategory → String
  | .layer_violation => "Layer Violation"
  | .naming_convention => "Naming Convention"
  | .design_pattern => "Design Pattern"
  | .circular_dependency => "Circular Dependency"

/-- `buildCommentBody` (src/reporter.ts:38-53). A missing or empty
`suggestion` is falsy in JavaScript, so no suggestion block is emitted. -/
def buildCommentBody (finding : ReviewFinding) : String :=
  let parts :=
    ["**" ++ severityIcon finding.severity ++ " " ++ severityUpper finding.severity ++
       ": " ++ finding.title ++ "**", "", finding.body]
    ++ (match finding.suggestion with
        | some s => if s = "" then [] else ["", "```suggestion", s, "```"]
        | none => [])
  strJoin "\n" parts

/-- `buildArchViolationCommentBody` (src/reporter.ts:57-77). -/
def buildArchViolationCommentBody (violation : ArchViolation) : String :=
  let parts :=
    ["**" ++ archSeverityIcon violation.severity ++ " ARCH " ++
       archSeverityUpper violation.severity ++ ": " ++
       archCategoryLabel violation.category ++ "**", "",
     "**Rule:** " ++ violation.rule, "", violation.description]
    ++ (if violation.suggestion = "" then []
        else ["", "```suggestion", violation.suggestion, "```"])
  strJoin "\n" parts

/-- Severity tally of `buildSummaryBody` (src/reporter.ts:97-105). -/
structure SevCounts where
  critical : Nat
  warning : Nat
  suggestion : Nat
  nitpick : Nat
deriving Repr, DecidableEq

/-- The counting loop `for (const f of review.findings) counts[f.severity]++`
(src/reporter.ts:103-105). -/
def severityCounts (findings : List ReviewFinding) : SevCounts :=
  findings.foldl
    (fun c f =>
      match f.severity with
      | .critical => { c with critical := c.critical + 1 }
      | .warning => { c with warning := c.warning + 1 }
      | .suggestion => { c with suggestion := c.suggestion + 1 }
      | .nitpick => { c with nitpick := c.nitpick + 1 })
    { critical := 0, warning := 0, suggestion := 0, nitpick := 0 }

/-- Arithmetic model of the JavaScript `(ms / 1000).toFixed(1)` used for
durations: one decimal digit, rounding half up. Only the shape of the
string matters to the claims, never its value. -/
def fmtSecs1 (ms : Nat) : String :=
  let t := (ms + 50) / 100
  toString (t / 10) ++ "." ++ toString (t % 10)

/-- Findings-overview section of `buildSummaryBody` (src/reporter.ts:96-123). -/
def findingsSection (findings : List ReviewFinding) : List String :=
  if 0 < findings.length then
    let c := severityCounts findings
    ["### Findings", "", "| Severity | Count |", "|----------|-------|"]
    ++ (if 0 < c.critical then ["| 🔴 Critical | " ++ toString c.critical ++ " |"] else [])
    ++ (if 0 < c.warning then ["| 🟡 Warning | " ++ toString c.warning ++ " |"] else [])
    ++ (if 0 < c.suggestion then ["| 🔵 Suggestion | " ++ toString c.suggestion ++ " |"] else [])
    ++ (if 0 < c.nitpick then ["| ⚪ Nitpick | " ++ toString c.nitpick ++ " |"] else [])
    ++ [""]
  else ["No specific code findings.", ""]

/-- Test-results section of `buildSummaryBody` (src/reporter.ts:126-150). -/
def testSection (testResult : Option StepResult) : List String :=
  match testResult with
  | none => []
  | some t =>
    ["### Tests " ++ (if t.success then "✅" else "❌"), ""]
    ++ (if t.output = "No test command detected; skipped." then
          ["_No test command detected._"]
        else
          [if t.success then "Tests passed in " ++ fmtSecs1 t.duration ++ "s."
           else "Tests **failed** after " ++ fmtSecs1 t.duration ++ "s."]
          ++ (if t.success then []
              else ["", "<details><summary>Test output</summary>", "", "```",
                    truncate t.output 3000, "```", "", "</details>"]))
    ++ [""]

/-- Lint-results section of `buildSummaryBody` (src/reporter.ts:153-177). -/
def lintSection (lintResult : Option StepResult) : List String :=
  match lintResult with
  | none => []
  | some l =>
    ["### Linting " ++ (if l.success then "✅" else "⚠️"), ""]
    ++ (if l.output = "No lint command detected; skipped." then
          ["_No lint command detected._"]
        else
          [if l.success then "Linting passed in " ++ fmtSecs1 l.duration ++ "s."
           else "Linter reported issues after " ++ fmtSecs1 l.duration ++ "s."]
          ++ (if l.success then []
              else ["", "<details><summary>Lint output</summary>", "", "```",
                    truncate l.output 3000, "```", "", "</details>"]))
    ++ [""]

/-- The insertion-ordered grouping `byCategory` (src/reporter.ts:201-208):
a `Map<string, ArchViolation[]>` filled in violation order. -/
def groupByCategory (violations : List ArchViolation) : List (String × List ArchViolation) :=
  violations.foldl
    (fun acc v =>
      let label := archCategoryLabel v.category
      if acc.any (fun g => g.1 = label) then
        acc.map (fun g => if g.1 = label then (g.1, g.2 ++ [v]) else g)
      else acc ++ [(label, [v])])
    []

/-- Architecture-conformance section of `buildSummaryBody`
(src/reporter.ts:180-225). -/
def archSection (archReview : Option ArchReviewOutput) : List String :=
  match archReview with
  | none => []
  | some ar =>
    let scoreDisplay :=
      if 0 ≤ ar.conformance_score then toString ar.conformance_score ++ "/100" else "N/A"
    let scoreIcon :=
      if 80 ≤ ar.conformance_score then "✅"
      else if 50 ≤ ar.conformance_score then "⚠️"
      else if 0 ≤ ar.conformance_score then "❌"
      else "❓"
    ["### Architecture Conformance " ++ scoreIcon, "",
     "**Score:** " ++ scoreDisplay, "", ar.summary, ""]
    ++ (if 0 < ar.violations.length then
          ["| Category | Severity | File | Rule |",
           "|----------|----------|------|------|"]
          ++ (groupByCategory ar.violations).flatMap
               (fun g => g.2.map (fun v =>
                 "| " ++ g.1 ++ " | " ++ archSeverityIcon v.severity ++ " " ++
                 archSeverityStr v.severity ++ " | `" ++ v.file ++ ":" ++
                 toString v.line ++ "` | " ++ v.rule ++ " |"))
          ++ [""]
        else ["No architecture violations found.", ""])

/-- Excluded-files section of `buildSummaryBody` (src/reporter.ts:228-245). -/
def excludedSection (excludedFiles : List String) : List String :=
  if 0 < excludedFiles.length then
    ["### Excluded Files", "",
     toString excludedFiles.length ++
       " file(s) were excluded from AI review (lock files, generated code, build output, vendor dirs):",
     "", "<details><summary>Excluded files</summary>", ""]
    ++ excludedFiles.map (fun f => "- `" ++ f ++ "`")
    ++ ["", "</details>", "", "_Use `--include-all` to review these files._", ""]
  else []

/-- `buildSummaryBody` (src/reporter.ts:81-251): the summary body is a
function of the review, the test and lint results, the architecture
review and the excluded-file list only; the diff never reaches it. -/
def buildSummaryBody (review : ReviewOutput) (testResult lintResult : Option StepResult)
    (archReview : Option ArchReviewOutput) (excludedFiles : List String) : String :=
  strJoin "\n"
    (["## PR Review Summary", "", review.summary, ""]
     ++ findingsSection review.findings
     ++ testSection testResult
     ++ lintSection lintResult
     ++ archSection archReview
     ++ excludedSection excludedFiles
     ++ ["---",
         "_Review generated by [ai-pr-reviewer](https://www.npmjs.com/package/ai-pr-reviewer) using OpenAI Codex CLI._"])

/-- `mapVerdict` (src/reporter.ts:255-267). -/
def mapVerdict : Verdict → ReviewEvent
  | .approve => .APPROVE
  | .request_changes => .REQUEST_CHANGES
  | .comment => .COMMENT

/-- The finding loop of `buildReviewPayload` (src/reporter.ts:293-310):
each finding is dropped when its file is absent from the valid-line map or
its line is not in the file's set, and otherwise becomes one comment. -/
def findingComments (validLines : FileMap) : List ReviewFinding → List GitHubReviewComment
  | [] => []
  | f :: rest =>
    match FileMap.get? validLines f.file with
    | none => findingComments validLines rest
    | some s =>
      if f.line ∈ s then
        ⟨f.file, f.line, buildCommentBody f⟩ :: findingComments validLines rest
      else findingComments validLines rest

/-- The architecture-violation loop of `buildReviewPayload`
(src/reporter.ts:313-330). -/
def violationComments (validLines : FileMap) : List ArchViolation → List GitHubReviewComment
  | [] => []
  | v :: rest =>
    match FileMap.get? validLines v.file with
    | none => violationComments validLines rest
    | some s =>
      if v.line ∈ s then
        ⟨v.file, v.line, buildArchViolationCommentBody v⟩ :: violationComments validLines rest
      else violationComments validLines rest

/-- `buildReviewPayload` (src/reporter.ts:275-337). The `meta` parameter is
accepted and ignored, exactly as in the source. -/
def buildReviewPayload (review : ReviewOutput) (_meta : PrMetadata) (diff : String)
    (testResult lintResult : Option StepResult) (archReview : Option ArchReviewOutput)
    (excludedFiles : List String) : GitHubReviewPayload :=
  let body := buildSummaryBody review testResult lintResult archReview excludedFiles
  let validLines := parseDiffValidLines diff
  let comments := findingComments validLines review.findings
    ++ (match archReview with
        | none => []
        | some ar => violationComments validLines ar.violations)
  { event := mapVerdict review.verdict, body := body, comments := comments }

/-- JavaScript `string.endsWith(p)` on character lists. -/
def endsWithLit (p l : List Char) : Bool :=
  startsWithLit p.reverse l.reverse

/-- The `/`-separated components of a path. -/
def pathComponents (path : String) : List String :=
  (splitOnCharList '/' path.data).map String.mk

/-- The basename of a path (last `/`-separated component). -/
def pathBasename (path : String) : String :=
  (pathComponents path).getLastD ""

/-- Whether `p` occurs as a contiguous sublist of `l`. -/
def containsSub (p : List Char) : List Char → Bool
  | [] => p.isEmpty
  | c :: rest => startsWithLit p (c :: rest) || containsSub p rest

/-- Modelled from the spec: the lock-file basenames excluded by the
missing `filterDiffs`, from "Exact basename match against a lock-file
denylist (e.g. package-lock.json, yarn.lock, pnpm-lock.yaml, and
equivalents)"; the repository tests pin package-lock.json and yarn.lock. -/
def lockFileNames : List String :=
  ["package-lock.json", "yarn.lock", "pnpm-lock.yaml"]

/-- Modelled from the spec: the vendor/build/dependency directory names
the missing `filterDiffs` excludes as full path components, from
"vendor/, node_modules/, dist/, build/, and framework-cache directories",
matched as a path-component; the repository tests pin `.next` as a
framework-cache directory. -/
def vendorDirNames : List String :=
  ["vendor", "node_modules", "dist", "build", ".next"]

/-- Result shape of `filterDiffs`, as pinned by tests/utils.test.ts:
`{ included: FileDiff[], excluded: string[] }`. -/
structure FilteredDiffs where
  included : List FileDiff
  excluded : List String
deriving Repr, DecidableEq

/-- Modelled from the spec: `filterDiffs` is exported from src/utils.ts in
the repository (it is imported by src/arch-review.ts and src/review.ts and
exercised by tests/utils.test.ts) but its definition is absent from the
source snapshot. The exclusion decision follows spec section 4.4, checks
in order: lock-file basename, vendor/build directory path component,
generated/minified double-extension marker, binary-only diff content. -/
def isExcludedFragment (fd : FileDiff) : Bool :=
  (lockFileNames.any (fun n => pathBasename fd.file = n)) ||
  ((pathComponents fd.file).any (fun c => vendorDirNames.any (fun d => c = d))) ||
  (containsSub ".min.".data (pathBasename fd.file).data ||
     containsSub ".generated.".data (pathBasename fd.file).data) ||
  ((splitLines fd.content).any (fun l => startsWithLit "Binary files ".data l.data &&
      endsWithLit " differ".data l.data) &&
   !(splitLines fd.content).any (fun l => startsWithLit "@@ ".data l.data))

/-- Modelled from the spec: `filterDiffs`, whose definition is absent
from the src/ snapshot of src/utils.ts (spec section 4.4): partition the
fragments into reviewable and excluded ones, preserving input order
within each part; an excluded fragment is reported by its file path. -/
def filterDiffs (fileDiffs : List FileDiff) : FilteredDiffs :=
  { included := fileDiffs.filter (fun fd => !isExcludedFragment fd)
    excluded := (fileDiffs.filter (fun fd => isExcludedFragment fd)).map FileDiff.file }

/-- Sum of the character lengths of a batch group, the quantity tracked by
`currentSize` in `batchDiffChunks`. -/
def sumLen (g : List String) : Nat := (g.map String.length).sum

/-- The captured file paths of all `diff --git` header lines, in order. -/
def headerNames (ls : List String) : List String := ls.filterMap matchFileHeader

/-- The contiguous range `[s, s + k - 1]` as a list. -/
def natRange (s : Nat) : Nat → List Nat
  | 0 => []
  | k + 1 => s :: natRange (s + 1) k

/-- A structured description of one diff hunk used to state claim C3: the
literal header line, the new-start and new-count the header declares, and
the body lines. -/
structure HunkSpec where
  header : String
  start : Nat
  count : Nat
  body : List String
deriving Repr, DecidableEq

/-- A structured description of one file section of a diff used to state
claim C3: the literal `diff --git` header line, the path it captures, and
the hunks. -/
structure FileSection where
  header : String
  path : String
  hunks : List HunkSpec
deriving Repr, DecidableEq

/-- The literal lines of one hunk. -/
def hunkLines (h : HunkSpec) : List String := h.header :: h.body

/-- The literal lines of one file section. -/
def sectionLines (sec : FileSection) : List String :=
  sec.header :: sec.hunks.flatMap hunkLines

/-- The literal lines of a whole structured diff. -/
def diffLines (secs : List FileSection) : List String := secs.flatMap sectionLines

/-- New-file line numbers produced by a list of context-only hunks, in
cursor order. -/
def rangeList (hunks : List HunkSpec) : List Nat :=
  hunks.flatMap (fun h => natRange h.start h.count)

/-- Folding `FileMap.addLine` over a list of line numbers. -/
def addAll (m : FileMap) (p : String) (vals : List Nat) : FileMap :=
  vals.foldl (fun m v => FileMap.addLine m p v) m

/-- The effect of one context-only file section on the valid-line map: the
file-header line registers an empty set, then every context line adds the
cursor value. -/
def stepMap (m : FileMap) (sec : FileSection) : FileMap :=
  addAll (m ++ [(sec.path, [])]) sec.path (rangeList sec.hunks)

/-- The valid-line set of one context-only file section. -/
def setOf (sec : FileSection) : LineSet :=
  (rangeList sec.hunks).foldl LineSet.add []

/-- The end-to-end scenario diff of claim C2: `src/foo.ts` with hunk
`@@ -1,3 +1,5 @@` (two additions) and `src/bar.ts` with hunk
`@@ -10,2 +10,4 @@` (two additions). -/
def c2Diff : String :=
  "diff --git a/src/foo.ts b/src/foo.ts\n--- a/src/foo.ts\n+++ b/src/foo.ts\n@@ -1,3 +1,5 @@\n l1\n+a1\n+a2\n l2\n l3\ndiff --git a/src/bar.ts b/src/bar.ts\n--- a/src/bar.ts\n+++ b/src/bar.ts\n@@ -10,2 +10,4 @@\n c1\n+b1\n+b2\n c2"

/-- The valid finding of the claim C2 scenario (src/foo.ts line 2). -/
def c2FindingValid : ReviewFinding :=
  { file := "src/foo.ts", line := 2, severity := .warning
    title := "t1", body := "b1", suggestion := none }

/-- The finding of the claim C2 scenario whose line is outside any hunk. -/
def c2FindingBadLine : ReviewFinding :=
  { file := "src/foo.ts", line := 100, severity := .critical
    title := "t2", body := "b2", suggestion := none }

/-- The finding of the claim C2 scenario whose file is not in the diff. -/
def c2FindingUnknownFile : ReviewFinding :=
  { file := "src/unknown.ts", line := 5, severity := .suggestion
    title := "t3", body := "b3", suggestion := none }

/-- The review of the claim C2 scenario. -/
def c2Review : ReviewOutput :=
  { summary := "scenario summary"
    findings := [c2FindingValid, c2FindingBadLine, c2FindingUnknownFile]
    verdict := .comment }

/-- PR metadata of the claim C2 scenario (ignored by the payload builder). -/
def c2Meta : PrMetadata :=
  { title := "Test PR", body := "Test body", baseRefName := "main"
    headRefName := "feature", headRefOid := "abc123"
    files := [⟨"src/foo.ts", 5, 2⟩, ⟨"src/bar.ts", 10, 0⟩] }

/-- The one-deletion hunk diff of claim C1: hunk `@@ -5,5 +5,4 @@` with one
deletion among four context lines. -/
def c1Diff : String :=
  "diff --git a/file.ts b/file.ts\n--- a/file.ts\n+++ b/file.ts\n@@ -5,5 +5,4 @@\n context\n-deleted line\n context\n context\n context"

/-! ### Batching: structure of the greedy packer -/

theorem batchStep_sim (b : Nat) (g : BatchStateG) (fd : FileDiff) :
    batchStep b ⟨g.batches.map (strJoin "\n"), g.current, g.size⟩ fd =
      ⟨(batchStepG b g fd).batches.map (strJoin "\n"), (batchStepG b g fd).current,
        (batchStepG b g fd).size⟩ := by
  unfold batchStep batchStepG
  dsimp only
  by_cases h1 : (!g.current.isEmpty && decide (b < g.size + fd.content.length)) = true
  · simp only [h1, if_true]
    by_cases h2 : b < fd.content.length
    · simp [h2]
    · simp [h2]
  · simp only [Bool.not_eq_true] at h1
    simp only [h1, Bool.false_eq_true, if_false]
    by_cases h2 : b < fd.content.length
    · simp [h2]
    · simp [h2]

theorem batchFold_sim (b : Nat) (fds : List FileDiff) (g : BatchStateG) :
    fds.foldl (batchStep b) ⟨g.batches.map (strJoin "\n"), g.current, g.size⟩ =
      ⟨(fds.foldl (batchStepG b) g).batches.map (strJoin "\n"),
        (fds.foldl (batchStepG b) g).current, (fds.foldl (batchStepG b) g).size⟩ := by
  induction fds generalizing g with
  | nil => rfl
  | cons fd rest ih =>
    simp only [List.foldl_cons]
    rw [batchStep_sim]
    exact ih (batchStepG b g fd)

theorem batchDiffChunks_eq_groups (fds : List FileDiff) (b : Nat) :
    batchDiffChunks fds b = (batchGroups fds b).map (strJoin "\n") := by
  unfold batchDiffChunks batchGroups
  have h := batchFold_sim b fds ⟨[], [], 0⟩
  simp only [List.map_nil] at h
  rw [h]
  by_cases hc : (fds.foldl (batchStepG b) ⟨[], [], 0⟩).current.isEmpty
  · simp [hc]
  · simp [hc]

theorem batchStepG_join (b : Nat) (g : BatchStateG) (fd : FileDiff) :
    (batchStepG b g fd).batches.join ++ (batchStepG b g fd).current =
      g.batches.join ++ g.current ++ [fd.content] := by
  unfold batchStepG
  dsimp only
  by_cases h1 : (!g.current.isEmpty && decide (b < g.size + fd.content.length)) = true
  · by_cases h2 : b < fd.content.length <;> simp [h1, h2]
  · simp only [Bool.not_eq_true] at h1
    by_cases h2 : b < fd.content.length <;> simp [h1, h2]

theorem batchFoldG_join (b : Nat) (fds : List FileDiff) (g : BatchStateG) :
    (fds.foldl (batchStepG b) g).batches.join ++ (fds.foldl (batchStepG b) g).current =
      g.batches.join ++ g.current ++ fds.map FileDiff.content := by
  induction fds generalizing g with
  | nil => simp
  | cons fd rest ih =>
    simp only [List.foldl_cons, List.map_cons]
    rw [ih (batchStepG b g fd), batchStepG_join]
    simp

theorem batchGroups_join (fds : List FileDiff) (b : Nat) :
    (batchGroups fds b).join = fds.map FileDiff.content := by
  unfold batchGroups
  have h := batchFoldG_join b fds ⟨[], [], 0⟩
  simp only [List.join_nil, List.nil_append] at h
  by_cases hc : (fds.foldl (batchStepG b) ⟨[], [], 0⟩).current.isEmpty
  · rw [List.isEmpty_iff] at hc
    simp only [hc, List.append_nil] at h
    simp [hc, h]
  · simp only [Bool.not_eq_true] at hc
    simp [hc, h]

theorem batchStepG_inv (b : Nat) (g : BatchStateG) (fd : FileDiff)
    (hne : ∀ gr ∈ g.batches, gr ≠ [])
    (hok : ∀ gr ∈ g.batches, sumLen gr ≤ b ∨ ∃ c, gr = [c] ∧ b < c.length)
    (hsz : g.size = sumLen g.current) (hcur : sumLen g.current ≤ b) :
    (∀ gr ∈ (batchStepG b g fd).batches, gr ≠ []) ∧
    (∀ gr ∈ (batchStepG b g fd).batches,
        sumLen gr ≤ b ∨ ∃ c, gr = [c] ∧ b < c.length) ∧
    (batchStepG b g fd).size = sumLen (batchStepG b g fd).current ∧
    sumLen (batchStepG b g fd).current ≤ b := by
  unfold batchStepG
  dsimp only
  by_cases h1 : (!g.current.isEmpty && decide (b < g.size + fd.content.length)) = true
  · -- the running batch is flushed first
    have hgne : g.current ≠ [] := by
      intro he
      simp [he] at h1
    by_cases h2 : b < fd.content.length
    · -- then the oversized fragment is flushed alone
      simp only [h1, if_true, h2, if_true]
      refine ⟨?_, ?_, by simp [sumLen], by simp [sumLen]⟩
      · intro gr hgr
        rcases List.mem_append.mp hgr with h | h
        · rcases List.mem_append.mp h with h | h
          · exact hne gr h
          · simp only [List.mem_singleton] at h; exact h ▸ hgne
        · simp only [List.mem_singleton] at h; simp [h]
      · intro gr hgr
        rcases List.mem_append.mp hgr with h | h
        · rcases List.mem_append.mp h with h | h
          · exact hok gr h
          · simp only [List.mem_singleton] at h
            exact Or.inl (h ▸ hcur)
        · simp only [List.mem_singleton] at h
          exact Or.inr ⟨fd.content, by simp [h], h2⟩
    · -- the fragment starts a fresh batch within budget
      simp only [h1, if_true, h2, if_false]
      have hfd : fd.content.length ≤ b := Nat.le_of_not_lt h2
      refine ⟨?_, ?_, by simp [sumLen], by simpa [sumLen] using hfd⟩
      · intro gr hgr
        rcases List.mem_append.mp hgr with h | h
        · exact hne gr h
        · simp only [List.mem_singleton] at h; exact h ▸ hgne
      · intro gr hgr
        rcases List.mem_append.mp hgr with h | h
        · exact hok gr h
        · simp only [List.mem_singleton] at h
          exact Or.inl (h ▸ hcur)
  · -- no pre-flush: either the batch is empty or the fragment fits
    simp only [Bool.not_eq_true] at h1
    by_cases h2 : b < fd.content.length
    · -- oversized fragment: the batch must have been empty
      have hge : g.current = [] := by
        by_contra hgne
        have ha : (!g.current.isEmpty) = true := by
          simpa [List.isEmpty_iff] using hgne
        have hb : decide (b < g.size + fd.content.length) = true := by
          have : b < g.size + fd.content.length :=
            Nat.lt_of_lt_of_le h2 (Nat.le_add_left _ _)
          simpa using this
        simp [ha, hb] at h1
      simp only [h1, Bool.false_eq_true, if_false, h2, if_true]
      refine ⟨?_, ?_, by simp [sumLen], by simp [sumLen]⟩
      · intro gr hgr
        rcases List.mem_append.mp hgr with h | h
        · exact hne gr h
        · simp only [List.mem_singleton] at h
          simp [h, hge]
      · intro gr hgr
        rcases List.mem_append.mp hgr with h | h
        · exact hok gr h
        · simp only [List.mem_singleton] at h
          exact Or.inr ⟨fd.content, by simp [h, hge], h2⟩
    · -- fragment fits: it is appended to the running batch
      simp only [h1, Bool.false_eq_true, if_false, h2, if_false]
      have hfit : sumLen g.current + fd.content.length ≤ b := by
        by_cases hge : g.current.isEmpty
        · rw [List.isEmpty_iff] at hge
          simpa [hge, sumLen] using Nat.le_of_not_lt h2
        · have ha : (!g.current.isEmpty) = true := by simp [hge]
          have : ¬ b < g.size + fd.content.length := by
            intro hlt
            simp [ha, hlt] at h1
          rw [hsz] at this
          exact Nat.le_of_not_lt this
      refine ⟨hne, hok, by simp [hsz, sumLen], ?_⟩
      simpa [sumLen] using hfit

theorem batchFoldG_inv (b : Nat) (fds : List FileDiff) (g : BatchStateG)
    (hne : ∀ gr ∈ g.batches, gr ≠ [])
    (hok : ∀ gr ∈ g.batches, sumLen gr ≤ b ∨ ∃ c, gr = [c] ∧ b < c.length)
    (hsz : g.size = sumLen g.current) (hcur : sumLen g.current ≤ b) :
    (∀ gr ∈ (fds.foldl (batchStepG b) g).batches, gr ≠ []) ∧
    (∀ gr ∈ (fds.foldl (batchStepG b) g).batches,
        sumLen gr ≤ b ∨ ∃ c, gr = [c] ∧ b < c.length) ∧
    (fds.foldl (batchStepG b) g).size = sumLen (fds.foldl (batchStepG b) g).current ∧
    sumLen (fds.foldl (batchStepG b) g).current ≤ b := by
  induction fds generalizing g with
  | nil => exact ⟨hne, hok, hsz, hcur⟩
  | cons fd rest ih =>
    obtain ⟨h1, h2, h3, h4⟩ := batchStepG_inv b g fd hne hok hsz hcur
    exact ih (batchStepG b g fd) h1 h2 h3 h4

theorem batchGroups_sound (fds : List FileDiff) (b : Nat) :
    (∀ gr ∈ batchGroups fds b, gr ≠ []) ∧
    (∀ gr ∈ batchGroups fds b, sumLen gr ≤ b ∨ ∃ c, gr = [c] ∧ b < c.length) := by
  unfold batchGroups
  obtain ⟨h1, h2, _, h4⟩ := batchFoldG_inv b fds ⟨[], [], 0⟩
    (by simp) (by simp) (by simp [sumLen]) (by simp [sumLen])
  by_cases hc : (fds.foldl (batchStepG b) ⟨[], [], 0⟩).current.isEmpty
  · simp only [hc, if_true]
    exact ⟨h1, h2⟩
  · simp only [hc, Bool.false_eq_true, if_false]
    constructor
    · intro gr hgr
      rcases List.mem_append.mp hgr with h | h
      · exact h1 gr h
      · simp only [List.mem_singleton] at h
        subst h
        simpa [List.isEmpty_iff] using hc
    · intro gr hgr
      rcases List.mem_append.mp hgr with h | h
      · exact h2 gr h
      · simp only [List.mem_singleton] at h
        exact Or.inl (h ▸ h4)

theorem strJoin_cons (sep x : String) (xs : List String) (h : xs ≠ []) :
    strJoin sep (x :: xs) = x ++ sep ++ strJoin sep xs := by
  cases xs with
  | nil => exact absurd rfl h
  | cons y ys => rfl

theorem strJoin_append (sep : String) (xs ys : List String) (hx : xs ≠ []) (hy : ys ≠ []) :
    strJoin sep (xs ++ ys) = strJoin sep xs ++ sep ++ strJoin sep ys := by
  induction xs with
  | nil => exact absurd rfl hx
  | cons x xs ih =>
    cases xs with
    | nil =>
      simp only [List.nil_append, List.singleton_append]
      rw [strJoin_cons sep x ys hy]
      rfl
    | cons x2 xs2 =>
      have hne : x2 :: xs2 ≠ [] := by simp
      have hne2 : x2 :: xs2 ++ ys ≠ [] := by simp
      rw [List.cons_append, strJoin_cons sep x (x2 :: xs2 ++ ys) hne2,
        strJoin_cons sep x (x2 :: xs2) hne, ih hne]
      simp [String.append_assoc]

theorem strJoin_map_join (sep : String) (gs : List (List String))
    (h : ∀ g ∈ gs, g ≠ []) :
    strJoin sep (gs.map (strJoin sep)) = strJoin sep gs.join := by
  induction gs with
  | nil => rfl
  | cons g gs ih =>
    cases hgs : gs with
    | nil =>
      subst hgs
      show strJoin sep [strJoin sep g] = strJoin sep ([g].join)
      simp only [List.join_cons, List.join_nil, List.append_nil]
      rfl
    | cons g2 gs2 =>
      subst hgs
      have hg : g ≠ [] := h g (List.mem_cons_self _ _)
      have hrest : ∀ x ∈ (g2 :: gs2), x ≠ [] :=
        fun x hx => h x (List.mem_cons_of_mem _ hx)
      have hjoin : (g2 :: gs2).join ≠ [] := by
        intro he
        rw [List.join_eq_nil_iff] at he
        exact hrest g2 (List.mem_cons_self _ _) (he g2 (List.mem_cons_self _ _))
      have hmap : ((g2 :: gs2).map (strJoin sep)) ≠ [] := by simp
      have hj : (g :: g2 :: gs2).join = g ++ (g2 :: gs2).join := rfl
      rw [List.map_cons, strJoin_cons sep _ _ hmap, ih hrest, hj,
        strJoin_append sep g (g2 :: gs2).join hg hjoin]

/-- Claim C10: for every list of fragments and every budget, the
newline-join of all batch strings returned by `batchDiffChunks` equals the
newline-join of all input fragment contents in input order — no fragment
content is dropped, duplicated, or reordered by batching. -/
theorem batchDiffChunks_preserves_contents (fds : List FileDiff) (b : Nat) :
    strJoin "\n" (batchDiffChunks fds b) = strJoin "\n" (fds.map FileDiff.content) := by
  rw [batchDiffChunks_eq_groups]
  rw [strJoin_map_join "\n" (batchGroups fds b) (batchGroups_sound fds b).1]
  rw [batchGroups_join]

/-- Claim C6: for every list of fragments and every budget, every batch
produced by `batchDiffChunks` (exposed group-wise by `batchGroups`) either
keeps its total fragment size within the budget or consists of exactly one
fragment whose size exceeds the budget; hence an oversized fragment always
occupies a batch by itself and never causes another fragment sharing a
batch to make that batch exceed the budget. -/
theorem batchDiffChunks_oversized_solo (fds : List FileDiff) (b : Nat) :
    batchDiffChunks fds b = (batchGroups fds b).map (strJoin "\n") ∧
    ∀ gr ∈ batchGroups fds b,
      sumLen gr ≤ b ∨ ∃ c, gr = [c] ∧ b < c.length :=
  ⟨batchDiffChunks_eq_groups fds b, (batchGroups_sound fds b).2⟩

/-- Witness for claim C6: a five-character fragment with budget 3 is a solo
batch exceeding the budget. -/
theorem batchDiffChunks_oversized_solo_witness :
    sumLen ["xxxxx"] ≤ 3 ∨ ∃ c, ["xxxxx"] = [c] ∧ 3 < c.length :=
  (batchDiffChunks_oversized_solo [⟨"a.ts", "xxxxx"⟩] 3).2 ["xxxxx"] (by decide)

/-- Claim C5: the claim states that `batchDiffChunks` sorts the fragments
by file path before packing. The source at src/utils.ts:216-251 performs
no sort: on the fragment list `[z/file1.ts ↦ "Z1", a/file2.ts ↦ "A2"]`
(paths in reverse lexicographic order) the single produced batch is
`"Z1\nA2"` — the input order — whereas path-sorted packing would yield
`"A2\nZ1"`. -/
theorem batchDiffChunks_packs_in_input_order :
    batchDiffChunks [⟨"z/file1.ts", "Z1"⟩, ⟨"a/file2.ts", "A2"⟩] 10000 = ["Z1\nA2"] ∧
    ("Z1\nA2" : String) ≠ "A2\nZ1" := by
  constructor
  · rfl
  · decide

/-! ### Merging architecture review results -/

theorem score_fold_eq_min_filter (scores : List Int) (acc : Int) :
    scores.foldl (fun worst s => if 0 ≤ s ∧ s < worst then s else worst) acc =
      (scores.filter (fun s => 0 ≤ s)).foldl min acc := by
  induction scores generalizing acc with
  | nil => rfl
  | cons s rest ih =>
    rw [List.foldl_cons, List.filter_cons]
    by_cases hs : (0 : Int) ≤ s
    · have hd : (decide (0 ≤ s)) = true := decide_eq_true hs
      rw [hd, if_pos rfl, List.foldl_cons]
      have h1 : (if 0 ≤ s ∧ s < acc then s else acc) = min acc s := by
        by_cases hlt : s < acc
        · rw [if_pos ⟨hs, hlt⟩, min_eq_right (le_of_lt hlt)]
        · rw [if_neg (fun hc => hlt hc.2), min_eq_left (le_of_not_lt hlt)]
      rw [h1, ih]
    · have h1 : (if 0 ≤ s ∧ s < acc then s else acc) = acc :=
        if_neg (fun hc => hs hc.1)
      rw [h1]
      have hd : (decide (0 ≤ s)) = false := decide_eq_false hs
      rw [hd, if_neg Bool.false_ne_true, ih]

/-- Counterexample for claim C4: merging two all-sentinel partial results
does not propagate the sentinel. `mergeArchReviews` on two partials with
conformance score -1 yields the default score 100, not -1. -/
theorem mergeArchReviews_all_sentinel_counterexample :
    mergeArchReviews [⟨"batch one", -1, []⟩, ⟨"batch two", -1, []⟩] =
      ⟨"batch one\n\nbatch two", 100, []⟩ ∧ (100 : Int) ≠ -1 := by
  constructor
  · rfl
  · decide

/-- Claim C4 (amended): the merged conformance score is the minimum of the
non-negative partial scores, with negative sentinel scores excluded from
the minimum; when every partial carries the sentinel — as with an empty
partial list — the merged score is the default 100. In particular merging
scores [90, 40, -1] yields 40 and merging [-1, -1] yields 100. -/
theorem mergeArchReviews_score_min (results : List ArchReviewOutput) :
    (mergeArchReviews results).conformance_score =
      ((results.map ArchReviewOutput.conformance_score).filter
        (fun s => 0 ≤ s)).foldl min 100 ∧
    (mergeArchReviews [⟨"a", 90, []⟩, ⟨"b", 40, []⟩, ⟨"c", -1, []⟩]).conformance_score = 40 ∧
    (mergeArchReviews [⟨"a", -1, []⟩, ⟨"b", -1, []⟩]).conformance_score = 100 ∧
    (mergeArchReviews []).conformance_score = 100 := by
  refine ⟨?_, rfl, rfl, rfl⟩
  show results.foldl _ 100 = _
  rw [← score_fold_eq_min_filter (results.map ArchReviewOutput.conformance_score) 100]
  rw [List.foldl_map]

/-! ### Review payload: comment filtering and summary independence -/

theorem findingComments_eq_filterMap (validLines : FileMap) (findings : List ReviewFinding) :
    findingComments validLines findings =
      findings.filterMap (fun f =>
        match FileMap.get? validLines f.file with
        | none => none
        | some s =>
          if f.line ∈ s then some ⟨f.file, f.line, buildCommentBody f⟩ else none) := by
  induction findings with
  | nil => rfl
  | cons f rest ih =>
    rw [List.filterMap_cons]
    unfold findingComments
    cases hg : FileMap.get? validLines f.file with
    | none => simpa [hg] using ih
    | some s =>
      by_cases hl : f.line ∈ s
      · simp only [hg, hl, if_pos]
        rw [ih]
      · simp only [hg, hl, if_neg]
        rw [ih]
        simp

theorem violationComments_eq_filterMap (validLines : FileMap) (vs : List ArchViolation) :
    violationComments validLines vs =
      vs.filterMap (fun v =>
        match FileMap.get? validLines v.file with
        | none => none
        | some s =>
          if v.line ∈ s then some ⟨v.file, v.line, buildArchViolationCommentBody v⟩
          else none) := by
  induction vs with
  | nil => rfl
  | cons v rest ih =>
    rw [List.filterMap_cons]
    unfold violationComments
    cases hg : FileMap.get? validLines v.file with
    | none => simpa [hg] using ih
    | some s =>
      by_cases hl : v.line ∈ s
      · simp only [hg, hl, if_pos]
        rw [ih]
      · simp only [hg, hl, if_neg]
        rw [ih]
        simp

/-- Claim C2: `buildReviewPayload` emits exactly one inline comment
`{path, line, body}` for each finding whose file is a key of the
valid-line mapping and whose line is a member of that file's set, and
silently drops every other finding; in the end-to-end scenario with
findings at src/foo.ts:2 (valid), src/foo.ts:100 (line outside any hunk)
and src/unknown.ts:5 (file not in the diff), the payload contains exactly
one comment, for src/foo.ts:2. -/
theorem buildReviewPayload_comment_filter :
    (∀ (review : ReviewOutput) (meta : PrMetadata) (diff : String)
        (t l : Option StepResult) (arch : Option ArchReviewOutput) (ex : List String),
      (buildReviewPayload review meta diff t l arch ex).comments =
        review.findings.filterMap (fun f =>
          match FileMap.get? (parseDiffValidLines diff) f.file with
          | none => none
          | some s =>
            if f.line ∈ s then some ⟨f.file, f.line, buildCommentBody f⟩ else none)
        ++ (match arch with
            | none => []
            | some ar => ar.violations.filterMap (fun v =>
                match FileMap.get? (parseDiffValidLines diff) v.file with
                | none => none
                | some s =>
                  if v.line ∈ s then
                    some ⟨v.file, v.line, buildArchViolationCommentBody v⟩
                  else none))) ∧
    (buildReviewPayload c2Review c2Meta c2Diff none none none []).comments =
      [⟨"src/foo.ts", 2, buildCommentBody c2FindingValid⟩] := by
  constructor
  · intro review meta diff t l arch ex
    show findingComments _ _ ++ _ = _
    rw [findingComments_eq_filterMap]
    cases arch with
    | none => rfl
    | some ar =>
      show _ ++ violationComments _ _ = _
      rw [violationComments_eq_filterMap]
  · decide

/-- Claim C9: the summary body of the review payload is computed
independently of the diff text and the valid-line mapping — two runs of
`buildReviewPayload` that differ only in the diff argument produce
identical body text, the body is exactly `buildSummaryBody` of the full
review, and the severity counts feeding the body count every finding of
the review (including findings the diff-hunk rule drops from inline
comments). -/
theorem buildReviewPayload_body_independent_of_diff :
    (∀ (review : ReviewOutput) (meta : PrMetadata) (diff diff' : String)
        (t l : Option StepResult) (arch : Option ArchReviewOutput) (ex : List String),
      (buildReviewPayload review meta diff t l arch ex).body =
        (buildReviewPayload review meta diff' t l arch ex).body) ∧
    (∀ (review : ReviewOutput) (meta : PrMetadata) (diff : String)
        (t l : Option StepResult) (arch : Option ArchReviewOutput) (ex : List String),
      (buildReviewPayload review meta diff t l arch ex).body =
        buildSummaryBody review t l arch ex) ∧
    (∀ findings : List ReviewFinding,
      severityCounts findings =
        ⟨(findings.filter (fun f => f.severity = .critical)).length,
         (findings.filter (fun f => f.severity = .warning)).length,
         (findings.filter (fun f => f.severity = .suggestion)).length,
         (findings.filter (fun f => f.severity = .nitpick)).length⟩) := by
  refine ⟨fun _ _ _ _ _ _ _ _ => rfl, fun _ _ _ _ _ _ _ => rfl, ?_⟩
  intro findings
  suffices h : ∀ (c : SevCounts),
      findings.foldl
        (fun c f =>
          match f.severity with
          | .critical => { c with critical := c.critical + 1 }
          | .warning => { c with warning := c.warning + 1 }
          | .suggestion => { c with suggestion := c.suggestion + 1 }
          | .nitpick => { c with nitpick := c.nitpick + 1 })
        c =
        ⟨c.critical + (findings.filter (fun f => f.severity = .critical)).length,
         c.warning + (findings.filter (fun f => f.severity = .warning)).length,
         c.suggestion + (findings.filter (fun f => f.severity = .suggestion)).length,
         c.nitpick + (findings.filter (fun f => f.severity = .nitpick)).length⟩ by
    have := h ⟨0, 0, 0, 0⟩
    simpa [severityCounts] using this
  induction findings with
  | nil => intro c; simp
  | cons f rest ih =>
    intro c
    rw [List.foldl_cons]
    cases hsev : f.severity <;>
      simp [ih, List.filter_cons, hsev, Nat.add_assoc, Nat.add_comm 1]

/-! ### The valid-line cursor of parseDiffValidLines -/

theorem startsWithLit_head_ne {p c : Char} {ps cs : List Char} (h : p ≠ c) :
    startsWithLit (p :: ps) (c :: cs) = false := by
  simp [startsWithLit, h]

theorem matchFileHeader_none_of_head {line : String} {c : Char} {cs : List Char}
    (hd : line.data = c :: cs) (hc : c ≠ 'd') : matchFileHeader line = none := by
  unfold matchFileHeader
  have hpre : ("diff --git a/".data) = 'd' :: "iff --git a/".data := rfl
  rw [hd, hpre, startsWithLit_head_ne (fun he => hc he.symm)]
  rfl

theorem matchHunkHeaderParts_none_of_head {line : String} {c : Char} {cs : List Char}
    (hd : line.data = c :: cs) (hc : c ≠ '@') : matchHunkHeaderParts line = none := by
  unfold matchHunkHeaderParts
  have hpre : ("@@ -".data) = '@' :: "@ -".data := rfl
  rw [hd, hpre, startsWithLit_head_ne (fun he => hc he.symm)]
  rfl

theorem matchHunkHeader_none_of_head {line : String} {c : Char} {cs : List Char}
    (hd : line.data = c :: cs) (hc : c ≠ '@') : matchHunkHeader line = none := by
  unfold matchHunkHeader
  rw [matchHunkHeaderParts_none_of_head hd hc]
  rfl

theorem matchHunkHeaderParts_head {line : String} {x : Nat × Option Nat}
    (h : matchHunkHeaderParts line = some x) :
    ∃ cs, line.data = '@' :: cs := by
  unfold matchHunkHeaderParts at h
  by_cases hp : startsWithLit "@@ -".data line.data = true
  · have hpre : ("@@ -".data) = '@' :: "@ -".data := rfl
    rw [hpre] at hp
    cases hd : line.data with
    | nil => rw [hd] at hp; simp [startsWithLit] at hp
    | cons c cs =>
      rw [hd] at hp
      by_cases hc : c = '@'
      · subst hc; exact ⟨cs, rfl⟩
      · rw [startsWithLit_head_ne (fun he => hc he.symm)] at hp
        simp at hp
  · rw [eq_false_of_ne_true hp] at h
    simp at h

theorem matchFileHeader_none_of_hunk {line : String} {n : Nat}
    (h : matchHunkHeader line = some n) : matchFileHeader line = none := by
  unfold matchHunkHeader at h
  cases hp : matchHunkHeaderParts line with
  | none => rw [hp] at h; simp at h
  | some x =>
    obtain ⟨cs, hd⟩ := matchHunkHeaderParts_head hp
    exact matchFileHeader_none_of_head hd (by decide)

theorem parseStep_hunkHeader (st : ParseState) (line : String) (n : Nat) (f : String)
    (hh : matchHunkHeader line = some n) (hf : st.currentFile = some f) :
    parseStep st line = { st with newLine := n, inHunk := true } := by
  unfold parseStep
  rw [matchFileHeader_none_of_hunk hh, hh, hf]

theorem parseStep_addition (st : ParseState) (line : String) (f : String)
    (rest : List Char) (hf : st.currentFile = some f) (hk : st.inHunk = true)
    (hl : line.data = '+' :: rest) :
    parseStep st line =
      { st with result := FileMap.addLine st.result f st.newLine
                newLine := st.newLine + 1 } := by
  unfold parseStep
  rw [matchFileHeader_none_of_head hl (by decide),
    matchHunkHeader_none_of_head hl (by decide), hf, hk]
  have hplus : startsWithLit ['+'] line.data = true := by
    rw [hl]; rfl
  simp [hplus]

theorem parseStep_deletion (st : ParseState) (line : String) (f : String)
    (rest : List Char) (hf : st.currentFile = some f) (hk : st.inHunk = true)
    (hl : line.data = '-' :: rest) :
    parseStep st line = st := by
  unfold parseStep
  rw [matchFileHeader_none_of_head hl (by decide),
    matchHunkHeader_none_of_head hl (by decide), hf, hk]
  have hplus : startsWithLit ['+'] line.data = false := by
    rw [hl]; rfl
  have hminus : startsWithLit ['-'] line.data = true := by
    rw [hl]; rfl
  simp [hplus, hminus]

theorem parseStep_context (st : ParseState) (line : String) (f : String)
    (rest : List Char) (hf : st.currentFile = some f) (hk : st.inHunk = true)
    (hl : line.data = ' ' :: rest) :
    parseStep st line =
      { st with result := FileMap.addLine st.result f st.newLine
                newLine := st.newLine + 1 } := by
  unfold parseStep
  rw [matchFileHeader_none_of_head hl (by decide),
    matchHunkHeader_none_of_head hl (by decide), hf, hk]
  have hplus : startsWithLit ['+'] line.data = false := by
    rw [hl]; rfl
  have hminus : startsWithLit ['-'] line.data = false := by
    rw [hl]; rfl
  have hspace : startsWithLit [' '] line.data = true := by
    rw [hl]; rfl
  simp [hplus, hminus, hspace]

/-- Claim C1: within a hunk the new-file line cursor is seeded from the
hunk header's new-start value; every addition line and every context line
adds the current cursor value to the current file's set and advances the
cursor by exactly 1; every deletion line neither adds a value nor advances
the cursor; and the hunk `@@ -5,5 +5,4 @@` containing one deletion among
four context lines yields exactly the four valid lines 5, 6, 7, 8. -/
theorem parseDiffValidLines_cursor_rules :
    (∀ (st : ParseState) (line : String) (n : Nat) (f : String),
      matchHunkHeader line = some n → st.currentFile = some f →
      parseStep st line = { st with newLine := n, inHunk := true }) ∧
    (∀ (st : ParseState) (line : String) (f : String) (rest : List Char),
      st.currentFile = some f → st.inHunk = true → line.data = '+' :: rest →
      parseStep st line =
        { st with result := FileMap.addLine st.result f st.newLine
                  newLine := st.newLine + 1 }) ∧
    (∀ (st : ParseState) (line : String) (f : String) (rest : List Char),
      st.currentFile = some f → st.inHunk = true → line.data = '-' :: rest →
      parseStep st line = st) ∧
    (∀ (st : ParseState) (line : String) (f : String) (rest : List Char),
      st.currentFile = some f → st.inHunk = true → line.data = ' ' :: rest →
      parseStep st line =
        { st with result := FileMap.addLine st.result f st.newLine
                  newLine := st.newLine + 1 }) ∧
    FileMap.get? (parseDiffValidLines c1Diff) "file.ts" = some [5, 6, 7, 8] := by
  refine ⟨?_, ?_, ?_, ?_, by decide⟩
  · intro st line n f hh hf
    exact parseStep_hunkHeader st line n f hh hf
  · intro st line f rest hf hk hl
    exact parseStep_addition st line f rest hf hk hl
  · intro st line f rest hf hk hl
    exact parseStep_deletion st line f rest hf hk hl
  · intro st line f rest hf hk hl
    exact parseStep_context st line f rest hf hk hl

/-- Witness for claim C1: an addition line processed in a hunk at cursor 7
adds line 7 to the current file's set and advances the cursor to 8. -/
theorem parseDiffValidLines_cursor_rules_witness :
    parseStep ⟨[("f.ts", [])], some "f.ts", 7, true⟩ "+new" =
      ⟨[("f.ts", [7])], some "f.ts", 8, true⟩ := by
  have h := parseDiffValidLines_cursor_rules.2.1
    ⟨[("f.ts", [])], some "f.ts", 7, true⟩ "+new" "f.ts" "new".data rfl rfl rfl
  rw [h]
  decide

/-! ### Splitting a diff into per-file fragments -/

theorem splitOnCharList_ne_nil (sep : Char) (l : List Char) :
    splitOnCharList sep l ≠ [] := by
  cases l with
  | nil => simp [splitOnCharList]
  | cons c cs =>
    unfold splitOnCharList
    cases h : splitOnCharList sep cs with
    | nil => simp
    | cons r rs =>
      by_cases hc : c = sep <;> simp [hc]

theorem splitOnCharList_cons (sep c : Char) (cs : List Char) :
    splitOnCharList sep (c :: cs) =
      match splitOnCharList sep cs with
      | [] => [[]]
      | r :: rs => if c = sep then [] :: r :: rs else (c :: r) :: rs := rfl

theorem splitOnCharList_append (sep : Char) (a b : List Char) :
    splitOnCharList sep (a ++ sep :: b) =
      splitOnCharList sep a ++ splitOnCharList sep b := by
  induction a with
  | nil =>
    rw [List.nil_append, splitOnCharList_cons]
    cases h : splitOnCharList sep b with
    | nil => exact absurd h (splitOnCharList_ne_nil sep b)
    | cons r rs => simp [splitOnCharList]
  | cons c cs ih =>
    rw [List.cons_append, splitOnCharList_cons, ih, splitOnCharList_cons]
    cases h : splitOnCharList sep cs with
    | nil => exact absurd h (splitOnCharList_ne_nil sep cs)
    | cons r rs =>
      rw [List.cons_append]
      by_cases hc : c = sep <;> simp [hc]

theorem splitOnCharList_no_sep (sep : Char) (l : List Char) (h : sep ∉ l) :
    splitOnCharList sep l = [l] := by
  induction l with
  | nil => rfl
  | cons c cs ih =>
    have hc : c ≠ sep := fun he => h (he ▸ List.mem_cons_self c cs)
    have hcs : sep ∉ cs := fun hm => h (List.mem_cons_of_mem c hm)
    unfold splitOnCharList
    rw [ih hcs]
    simp [hc]

theorem string_data_append (a b : String) : (a ++ b).data = a.data ++ b.data := rfl

theorem splitLines_append (a b : String) :
    splitLines (a ++ "\n" ++ b) = splitLines a ++ splitLines b := by
  unfold splitLines splitLinesList
  have hd : (a ++ "\n" ++ b).data = a.data ++ '\n' :: b.data := by
    rw [string_data_append, string_data_append]
    have hn : ("\n" : String).data = ['\n'] := by decide
    rw [hn, List.append_assoc, List.singleton_append]
  rw [hd, splitOnCharList_append]
  simp

theorem splitLines_single (s : String) (h : '\n' ∉ s.data) : splitLines s = [s] := by
  unfold splitLines splitLinesList
  rw [splitOnCharList_no_sep '\n' s.data h]
  rfl

theorem splitLines_strJoin (ls : List String) (hne : ls ≠ [])
    (h : ∀ l ∈ ls, '\n' ∉ l.data) : splitLines (strJoin "\n" ls) = ls := by
  induction ls with
  | nil => exact absurd rfl hne
  | cons l rest ih =>
    cases hr : rest with
    | nil =>
      subst hr
      exact splitLines_single l (h l (List.mem_cons_self _ _))
    | cons l2 rest2 =>
      subst hr
      rw [strJoin_cons _ _ _ (by simp), splitLines_append,
        splitLines_single l (h l (List.mem_cons_self _ _)),
        ih (by simp) (fun x hx => h x (List.mem_cons_of_mem _ hx))]
      rfl

theorem splitLines_strJoin_flat (ds : List String) (hne : ds ≠ []) :
    splitLines (strJoin "\n" ds) = (ds.map splitLines).join := by
  induction ds with
  | nil => exact absurd rfl hne
  | cons d rest ih =>
    cases hr : rest with
    | nil => subst hr; simp [strJoin]
    | cons d2 rest2 =>
      subst hr
      rw [strJoin_cons _ _ _ (by simp), splitLines_append, ih (by simp)]
      simp

theorem splitFlush_map (st : SplitState)
    (inv : ∀ f, st.currentFile = some f → st.currentLines ≠ []) :
    (splitFlush st).map FileDiff.file =
      st.files.map FileDiff.file ++
        (match st.currentFile with | some f => [f] | none => []) := by
  unfold splitFlush
  cases hc : st.currentFile with
  | none => simp
  | some f =>
    have hne : st.currentLines ≠ [] := inv f hc
    have hie : st.currentLines.isEmpty = false := by
      simpa [List.isEmpty_iff] using hne
    simp [hie]

theorem splitFold_files (ls : List String) (st : SplitState)
    (inv : ∀ f, st.currentFile = some f → st.currentLines ≠ []) :
    (splitFlush (ls.foldl splitStep st)).map FileDiff.file =
      st.files.map FileDiff.file ++
        (match st.currentFile with | some f => [f] | none => []) ++
        headerNames ls := by
  induction ls generalizing st with
  | nil =>
    rw [List.foldl_nil]
    rw [splitFlush_map st inv]
    simp [headerNames]
  | cons line rest ih =>
    rw [List.foldl_cons]
    cases hm : matchFileHeader line with
    | some g =>
      have hstep : splitStep st line =
          { files := splitFlush st, currentFile := some g, currentLines := [line] } := by
        unfold splitStep; rw [hm]
      rw [hstep]
      rw [ih _ (by intro f hf; simp)]
      have hflush := splitFlush_map st inv
      simp only [hflush]
      have hh : headerNames (line :: rest) = g :: headerNames rest := by
        unfold headerNames
        rw [List.filterMap_cons]
        rw [hm]
      rw [hh]
      simp
    | none =>
      have hstep : splitStep st line =
          { st with currentLines := st.currentLines ++ [line] } := by
        unfold splitStep; rw [hm]
      rw [hstep]
      rw [ih _ (by intro f hf; simp)]
      have hh : headerNames (line :: rest) = headerNames rest := by
        unfold headerNames
        rw [List.filterMap_cons]
        rw [hm]
      rw [hh]

theorem splitDiffByFile_files (d : String) :
    (splitDiffByFile d).map FileDiff.file = headerNames (splitLines d) := by
  unfold splitDiffByFile
  rw [splitFold_files (splitLines d) _ (by intro f hf; simp at hf)]
  simp

theorem sum_ones {α : Type} (xs : List α) (f : α → Nat)
    (h : ∀ x ∈ xs, f x = 1) : (xs.map f).sum = xs.length := by
  induction xs with
  | nil => rfl
  | cons x rest ih =>
    rw [List.map_cons, List.sum_cons, h x (List.mem_cons_self _ _),
      ih (fun y hy => h y (List.mem_cons_of_mem _ hy)), List.length_cons,
      Nat.add_comm]

/-- Claim C8: `splitDiffByFile` applied to the newline-concatenation of N
single-file diffs, each of which individually maps to exactly one
fragment, returns exactly N fragments carrying those files in the original
concatenation order. -/
theorem splitDiffByFile_concat (ds : List String)
    (h : ∀ d ∈ ds, (splitDiffByFile d).length = 1) :
    (splitDiffByFile (strJoin "\n" ds)).length = ds.length ∧
    (splitDiffByFile (strJoin "\n" ds)).map FileDiff.file =
      (ds.map (fun d => (splitDiffByFile d).map FileDiff.file)).join := by
  have hfun : (fun d => (splitDiffByFile d).map FileDiff.file) =
      (fun d => headerNames (splitLines d)) :=
    funext (fun d => splitDiffByFile_files d)
  have hmap : (splitDiffByFile (strJoin "\n" ds)).map FileDiff.file =
      (ds.map (fun d => (splitDiffByFile d).map FileDiff.file)).join := by
    cases hds : ds with
    | nil => subst hds; rfl
    | cons d0 rest =>
      subst hds
      rw [splitDiffByFile_files, splitLines_strJoin_flat _ (by simp)]
      unfold headerNames
      rw [List.filterMap_join, List.map_map, hfun]
      rfl
  refine ⟨?_, hmap⟩
  have h1 : (splitDiffByFile (strJoin "\n" ds)).length =
      ((splitDiffByFile (strJoin "\n" ds)).map FileDiff.file).length :=
    (List.length_map _ _).symm
  rw [h1, hmap, List.length_join, List.map_map]
  exact sum_ones ds _ (fun d hd => by
    show ((splitDiffByFile d).map FileDiff.file).length = 1
    rw [List.length_map]
    exact h d hd)

/-- Witness for claim C8: the concatenation of two single-file diffs
splits into exactly two fragments carrying the two files in order. -/
theorem splitDiffByFile_concat_witness :
    (splitDiffByFile (strJoin "\n"
        ["diff --git a/a.ts b/a.ts\n+x", "diff --git a/b.ts b/b.ts\n+y"])).length = 2 ∧
    (splitDiffByFile (strJoin "\n"
        ["diff --git a/a.ts b/a.ts\n+x", "diff --git a/b.ts b/b.ts\n+y"])).map
        FileDiff.file =
      (["diff --git a/a.ts b/a.ts\n+x", "diff --git a/b.ts b/b.ts\n+y"].map
        (fun d => (splitDiffByFile d).map FileDiff.file)).join :=
  splitDiffByFile_concat
    ["diff --git a/a.ts b/a.ts\n+x", "diff --git a/b.ts b/b.ts\n+y"] (by decide)

/-! ### FileMap lemmas for the context-only range theorem -/

theorem addLine_keys (m : FileMap) (p : String) (v : Nat) :
    (FileMap.addLine m p v).map Prod.fst = m.map Prod.fst := by
  unfold FileMap.addLine
  rw [List.map_map]
  apply List.map_congr_left
  intro e _
  by_cases he : e.1 = p <;> simp [he]

theorem addAll_keys (m : FileMap) (p : String) (vals : List Nat) :
    (addAll m p vals).map Prod.fst = m.map Prod.fst := by
  induction vals generalizing m with
  | nil => rfl
  | cons v vs ih =>
    show (addAll (FileMap.addLine m p v) p vs).map Prod.fst = _
    rw [ih, addLine_keys]

theorem hasKey_eq_false_iff (m : FileMap) (k : String) :
    FileMap.hasKey m k = false ↔ k ∉ m.map Prod.fst := by
  unfold FileMap.hasKey
  induction m with
  | nil => simp
  | cons e rest ih =>
    rw [List.any_cons, Bool.or_eq_false_iff, List.map_cons, ih]
    constructor
    · rintro ⟨h1, h2⟩ hm
      rcases List.mem_cons.mp hm with h | h
      · exact (of_decide_eq_false h1) h.symm
      · exact h2 h
    · intro h
      refine ⟨?_, fun hm => h (List.mem_cons_of_mem _ hm)⟩
      have hne : e.1 ≠ k := fun he => h (by rw [he]; exact List.mem_cons_self _ _)
      exact decide_eq_false hne

theorem get?_not_mem (m : FileMap) (k : String) (h : k ∉ m.map Prod.fst) :
    FileMap.get? m k = none := by
  unfold FileMap.get?
  induction m with
  | nil => rfl
  | cons e rest ih =>
    simp only [List.map_cons, List.mem_cons] at h
    push_neg at h
    rw [List.find?_cons_of_neg _ (by simpa [eq_comm] using h.1)]
    exact ih h.2

theorem get?_addLine_ne (m : FileMap) (p q : String) (v : Nat) (h : q ≠ p) :
    FileMap.get? (FileMap.addLine m p v) q = FileMap.get? m q := by
  unfold FileMap.get? FileMap.addLine
  induction m with
  | nil => rfl
  | cons e rest ih =>
    rw [List.map_cons]
    by_cases he : e.1 = p
    · rw [if_pos he]
      rw [List.find?_cons_of_neg _ (by simp [he]; exact fun hp => h hp.symm),
        List.find?_cons_of_neg _ (by simp [he]; exact fun hp => h hp.symm)]
      exact ih
    · rw [if_neg he]
      by_cases heq : e.1 = q
      · rw [List.find?_cons_of_pos _ (by simp [heq]),
          List.find?_cons_of_pos _ (by simp [heq])]
      · rw [List.find?_cons_of_neg _ (by simp [heq]),
          List.find?_cons_of_neg _ (by simp [heq])]
        exact ih

theorem get?_addLine_eq (m : FileMap) (p : String) (v : Nat) :
    FileMap.get? (FileMap.addLine m p v) p =
      (FileMap.get? m p).map (fun s => s.add v) := by
  unfold FileMap.get? FileMap.addLine
  induction m with
  | nil => rfl
  | cons e rest ih =>
    rw [List.map_cons]
    by_cases he : e.1 = p
    · rw [if_pos he]
      rw [List.find?_cons_of_pos _ (by simp [he]),
        List.find?_cons_of_pos _ (by simp [he])]
      simp
    · rw [if_neg he]
      rw [List.find?_cons_of_neg _ (by simp [he]),
        List.find?_cons_of_neg _ (by simp [he])]
      exact ih

theorem get?_addAll_ne (m : FileMap) (p q : String) (vals : List Nat) (h : q ≠ p) :
    FileMap.get? (addAll m p vals) q = FileMap.get? m q := by
  induction vals generalizing m with
  | nil => rfl
  | cons v vs ih =>
    show FileMap.get? (addAll (FileMap.addLine m p v) p vs) q = _
    rw [ih, get?_addLine_ne m p q v h]

theorem get?_addAll_eq (m : FileMap) (p : String) (vals : List Nat) :
    FileMap.get? (addAll m p vals) p =
      (FileMap.get? m p).map (fun s => vals.foldl LineSet.add s) := by
  induction vals generalizing m with
  | nil =>
    show FileMap.get? m p = (FileMap.get? m p).map (fun s => List.foldl LineSet.add s [])
    cases FileMap.get? m p <;> rfl
  | cons v vs ih =>
    show FileMap.get? (addAll (FileMap.addLine m p v) p vs) p = _
    rw [ih, get?_addLine_eq]
    cases FileMap.get? m p <;> rfl

theorem get?_append_sing_ne (m : FileMap) (p q : String) (s : LineSet) (h : q ≠ p) :
    FileMap.get? (m ++ [(p, s)]) q = FileMap.get? m q := by
  unfold FileMap.get?
  induction m with
  | nil =>
    rw [List.nil_append,
      List.find?_cons_of_neg _ (by simp; exact fun hp => h hp.symm)]
  | cons e rest ih =>
    by_cases heq : e.1 = q
    · rw [List.cons_append, List.find?_cons_of_pos _ (by simp [heq]),
        List.find?_cons_of_pos _ (by simp [heq])]
    · rw [List.cons_append, List.find?_cons_of_neg _ (by simp [heq]),
        List.find?_cons_of_neg _ (by simp [heq])]
      exact ih

theorem get?_append_sing_eq (m : FileMap) (p : String) (s : LineSet)
    (h : FileMap.hasKey m p = false) :
    FileMap.get? (m ++ [(p, s)]) p = some s := by
  unfold FileMap.get?
  induction m with
  | nil =>
    rw [List.nil_append, List.find?_cons_of_pos _ (by simp)]
    rfl
  | cons e rest ih =>
    have hne : e.1 ≠ p := by
      intro he
      rw [hasKey_eq_false_iff] at h
      exact h (by simp [he])
    rw [List.cons_append, List.find?_cons_of_neg _ (by simp [hne])]
    apply ih
    rw [hasKey_eq_false_iff] at h ⊢
    intro hm
    exact h (by simp [hm])

/-! ### Membership lemmas for line sets and ranges -/

theorem mem_lineSet_add (s : LineSet) (v n : Nat) :
    n ∈ LineSet.add s v ↔ n ∈ s ∨ n = v := by
  unfold LineSet.add
  by_cases hv : v ∈ s
  · rw [if_pos hv]
    constructor
    · exact Or.inl
    · rintro (h | h)
      · exact h
      · exact h ▸ hv
  · rw [if_neg hv]
    simp

theorem mem_foldl_add (vals : List Nat) (s : LineSet) (n : Nat) :
    n ∈ vals.foldl LineSet.add s ↔ n ∈ s ∨ n ∈ vals := by
  induction vals generalizing s with
  | nil => simp
  | cons v vs ih =>
    rw [List.foldl_cons, ih, mem_lineSet_add]
    simp [or_assoc]

theorem mem_natRange (k s n : Nat) :
    n ∈ natRange s k ↔ s ≤ n ∧ n < s + k := by
  induction k generalizing s with
  | zero => simp [natRange]
  | succ k ih =>
    unfold natRange
    rw [List.mem_cons, ih]
    constructor
    · rintro (h | ⟨h1, h2⟩)
      · subst h
        exact ⟨Nat.le_refl n, by omega⟩
      · exact ⟨by omega, by omega⟩
    · rintro ⟨h1, h2⟩
      by_cases he : n = s
      · exact Or.inl he
      · exact Or.inr ⟨by omega, by omega⟩

theorem mem_rangeList (hunks : List HunkSpec) (n : Nat) :
    n ∈ rangeList hunks ↔
      ∃ hs ∈ hunks, hs.start ≤ n ∧ n < hs.start + hs.count := by
  induction hunks with
  | nil => simp [rangeList]
  | cons h hs ih =>
    have hr : rangeList (h :: hs) = natRange h.start h.count ++ rangeList hs := by
      unfold rangeList
      rw [List.flatMap_cons]
    rw [hr, List.mem_append, ih, mem_natRange]
    constructor
    · rintro (⟨h1, h2⟩ | ⟨x, hx, h3⟩)
      · exact ⟨h, List.mem_cons_self _ _, h1, h2⟩
      · exact ⟨x, List.mem_cons_of_mem _ hx, h3⟩
    · rintro ⟨x, hx, h3⟩
      rcases List.mem_cons.mp hx with he | he
      · subst he
        exact Or.inl h3
      · exact Or.inr ⟨x, he, h3⟩

/-! ### Folding the parser over a context-only structured diff -/

theorem startsWithLit_single {c : Char} {l : List Char}
    (h : startsWithLit [c] l = true) : ∃ rest, l = c :: rest := by
  cases l with
  | nil => simp [startsWithLit] at h
  | cons x xs =>
    have : c = x := by
      by_contra hc
      rw [startsWithLit_head_ne hc] at h
      exact Bool.false_ne_true h
    exact ⟨xs, by rw [this]⟩

theorem parseStep_fileHeader (st : ParseState) (line : String) (f : String)
    (hm : matchFileHeader line = some f) :
    parseStep st line =
      { result := if FileMap.hasKey st.result f then st.result
                  else st.result ++ [(f, [])]
        currentFile := some f
        newLine := st.newLine
        inHunk := false } := by
  unfold parseStep
  rw [hm]

theorem bodyFold (body : List String) (st : ParseState) (p : String)
    (hf : st.currentFile = some p) (hk : st.inHunk = true)
    (hb : ∀ l ∈ body, startsWithLit [' '] l.data = true) :
    body.foldl parseStep st =
      { result := addAll st.result p (natRange st.newLine body.length)
        currentFile := some p
        newLine := st.newLine + body.length
        inHunk := true } := by
  induction body generalizing st with
  | nil =>
    rw [List.foldl_nil]
    show st = _
    cases st with
    | mk r c n i =>
      simp only at hf hk
      subst hf hk
      rfl
  | cons l ls ih =>
    obtain ⟨rest, hrest⟩ :=
      startsWithLit_single (hb l (List.mem_cons_self _ _))
    rw [List.foldl_cons, parseStep_context st l p rest hf hk hrest]
    have ihI := ih
      { st with result := FileMap.addLine st.result p st.newLine
                newLine := st.newLine + 1 }
      hf hk (fun x hx => hb x (List.mem_cons_of_mem _ hx))
    have h2 : st.newLine + 1 + ls.length = st.newLine + (l :: ls).length := by
      rw [List.length_cons]
      omega
    rw [h2] at ihI
    exact ihI

theorem hunksFold (hunks : List HunkSpec) (st : ParseState) (p : String)
    (hf : st.currentFile = some p)
    (hw : ∀ hs ∈ hunks,
      matchHunkHeader hs.header = some hs.start ∧
      hs.body.length = hs.count ∧
      ∀ l ∈ hs.body, startsWithLit [' '] l.data = true) :
    ∃ nl ih, (hunks.flatMap hunkLines).foldl parseStep st =
      { result := addAll st.result p (rangeList hunks)
        currentFile := some p
        newLine := nl
        inHunk := ih } := by
  induction hunks generalizing st with
  | nil =>
    refine ⟨st.newLine, st.inHunk, ?_⟩
    show st = _
    cases st with
    | mk r c n i =>
      simp only at hf
      subst hf
      rfl
  | cons h hs ihh =>
    obtain ⟨hm, hlen, hctx⟩ := hw h (List.mem_cons_self _ _)
    have hflat : (h :: hs).flatMap hunkLines =
        (h.header :: h.body) ++ hs.flatMap hunkLines := by
      rw [List.flatMap_cons]
      rfl
    rw [hflat, List.foldl_append, List.foldl_cons,
      parseStep_hunkHeader st h.header h.start p hm hf]
    rw [bodyFold h.body
      { result := st.result, currentFile := st.currentFile
        newLine := h.start, inHunk := true } p hf rfl hctx]
    obtain ⟨nl, ihk, hrec⟩ := ihh
      { result := addAll st.result p (natRange h.start h.body.length)
        currentFile := some p
        newLine := h.start + h.body.length
        inHunk := true }
      rfl (fun x hx => hw x (List.mem_cons_of_mem _ hx))
    have h1 : addAll (addAll st.result p (natRange h.start h.body.length)) p
        (rangeList hs) = addAll st.result p (rangeList (h :: hs)) := by
      have hr : rangeList (h :: hs) = natRange h.start h.count ++ rangeList hs := by
        unfold rangeList
        rw [List.flatMap_cons]
      rw [hr, hlen]
      unfold addAll
      rw [List.foldl_append]
    rw [h1] at hrec
    exact ⟨nl, ihk, hrec⟩

theorem sectionFold (sec : FileSection) (st : ParseState)
    (hm : matchFileHeader sec.header = some sec.path)
    (hk : FileMap.hasKey st.result sec.path = false)
    (hw : ∀ hs ∈ sec.hunks,
      matchHunkHeader hs.header = some hs.start ∧
      hs.body.length = hs.count ∧
      ∀ l ∈ hs.body, startsWithLit [' '] l.data = true) :
    ∃ nl ih, (sectionLines sec).foldl parseStep st =
      { result := stepMap st.result sec
        currentFile := some sec.path
        newLine := nl
        inHunk := ih } := by
  unfold sectionLines
  rw [List.foldl_cons, parseStep_fileHeader st sec.header sec.path hm, hk]
  simp only [Bool.false_eq_true, if_false]
  exact hunksFold sec.hunks _ sec.path rfl hw

theorem stepMap_keys (m : FileMap) (sec : FileSection) :
    (stepMap m sec).map Prod.fst = m.map Prod.fst ++ [sec.path] := by
  unfold stepMap
  rw [addAll_keys, List.map_append]
  rfl

theorem topFold (secs : List FileSection) (st : ParseState)
    (hsec : ∀ sec ∈ secs,
      matchFileHeader sec.header = some sec.path ∧
      ∀ hs ∈ sec.hunks,
        matchHunkHeader hs.header = some hs.start ∧
        hs.body.length = hs.count ∧
        ∀ l ∈ hs.body, startsWithLit [' '] l.data = true)
    (hkeys : ∀ sec ∈ secs, sec.path ∉ st.result.map Prod.fst)
    (hnd : (secs.map FileSection.path).Nodup) :
    ∃ cf nl ih, (diffLines secs).foldl parseStep st =
      { result := secs.foldl stepMap st.result
        currentFile := cf
        newLine := nl
        inHunk := ih } := by
  induction secs generalizing st with
  | nil =>
    exact ⟨st.currentFile, st.newLine, st.inHunk, rfl⟩
  | cons sec rest ih =>
    obtain ⟨hm, hw⟩ := hsec sec (List.mem_cons_self _ _)
    have hflat : diffLines (sec :: rest) = sectionLines sec ++ diffLines rest := by
      unfold diffLines
      rw [List.flatMap_cons]
    have hk : FileMap.hasKey st.result sec.path = false :=
      (hasKey_eq_false_iff _ _).mpr (hkeys sec (List.mem_cons_self _ _))
    rw [hflat, List.foldl_append]
    obtain ⟨nl1, ih1, hfold1⟩ := sectionFold sec st hm hk hw
    rw [hfold1]
    have hnd' : (rest.map FileSection.path).Nodup := List.Nodup.of_cons hnd
    have hhead : sec.path ∉ rest.map FileSection.path := by
      rw [List.map_cons] at hnd
      exact (List.nodup_cons.mp hnd).1
    obtain ⟨cf, nl, ihk, hrec⟩ := ih
      { result := stepMap st.result sec
        currentFile := some sec.path
        newLine := nl1
        inHunk := ih1 }
      (fun s hs => hsec s (List.mem_cons_of_mem _ hs))
      (by
        intro s hs
        rw [stepMap_keys]
        simp only [List.mem_append, List.mem_singleton]
        push_neg
        refine ⟨hkeys s (List.mem_cons_of_mem _ hs), ?_⟩
        intro he
        exact hhead (he ▸ List.mem_map_of_mem FileSection.path hs))
      hnd'
    exact ⟨cf, nl, ihk, hrec⟩

theorem mapFold_stable (secs : List FileSection) (m : FileMap) (q : String)
    (h : q ∉ secs.map FileSection.path) :
    FileMap.get? (secs.foldl stepMap m) q = FileMap.get? m q := by
  induction secs generalizing m with
  | nil => rfl
  | cons sec rest ih =>
    rw [List.map_cons, List.mem_cons] at h
    push_neg at h
    rw [List.foldl_cons, ih _ h.2]
    unfold stepMap
    rw [get?_addAll_ne _ _ _ _ h.1, get?_append_sing_ne _ _ _ _ h.1]

theorem mapFold_get (secs : List FileSection) (m : FileMap)
    (hkeys : ∀ sec ∈ secs, sec.path ∉ m.map Prod.fst)
    (hnd : (secs.map FileSection.path).Nodup) :
    ∀ sec ∈ secs,
      FileMap.get? (secs.foldl stepMap m) sec.path = some (setOf sec) := by
  induction secs generalizing m with
  | nil => intro sec hs; cases hs
  | cons sec0 rest ih =>
    intro sec hs
    have hnd' : (rest.map FileSection.path).Nodup := List.Nodup.of_cons hnd
    have hhead : sec0.path ∉ rest.map FileSection.path := by
      rw [List.map_cons] at hnd
      exact (List.nodup_cons.mp hnd).1
    rw [List.foldl_cons]
    rcases List.mem_cons.mp hs with he | he
    · subst he
      rw [mapFold_stable rest _ _ hhead]
      unfold stepMap
      rw [get?_addAll_eq]
      rw [get?_append_sing_eq _ _ _
        ((hasKey_eq_false_iff _ _).mpr (hkeys sec (List.mem_cons_self _ _)))]
      rfl
    · refine ih (stepMap m sec0) ?_ hnd' sec he
      intro s hsr
      rw [stepMap_keys]
      simp only [List.mem_append, List.mem_singleton]
      push_neg
      refine ⟨hkeys s (List.mem_cons_of_mem _ hsr), ?_⟩
      intro hep
      exact hhead (hep ▸ List.mem_map_of_mem FileSection.path hsr)

/-- Claim C3: for every diff whose hunks contain only context lines (no
addition or deletion lines), the valid-line set `parseDiffValidLines`
produces for each file equals the union over the file's hunks of the
contiguous integer ranges from the hunk header's new-start value to
new-start + new-count - 1 inclusive (the hunk body has new-count lines in
a well-formed diff, stated here as `hs.body.length = hs.count` together
with `hunkNewCount hs.header = some hs.count`). -/
theorem parseDiffValidLines_context_only (secs : List FileSection)
    (hnd : (secs.map FileSection.path).Nodup)
    (hsec : ∀ sec ∈ secs,
      matchFileHeader sec.header = some sec.path ∧ '\n' ∉ sec.header.data ∧
      ∀ hs ∈ sec.hunks,
        matchHunkHeader hs.header = some hs.start ∧
        hunkNewCount hs.header = some hs.count ∧
        '\n' ∉ hs.header.data ∧
        hs.body.length = hs.count ∧
        ∀ l ∈ hs.body, startsWithLit [' '] l.data = true ∧ '\n' ∉ l.data) :
    ∀ sec ∈ secs, ∃ s : LineSet,
      FileMap.get? (parseDiffValidLines (strJoin "\n" (diffLines secs)))
          sec.path = some s ∧
      ∀ n : Nat, n ∈ s ↔
        ∃ hs ∈ sec.hunks, hs.start ≤ n ∧ n < hs.start + hs.count := by
  intro sec hmem
  have hne : diffLines secs ≠ [] := by
    cases secs with
    | nil => cases hmem
    | cons s0 rest =>
      unfold diffLines
      rw [List.flatMap_cons]
      unfold sectionLines
      simp
  have hnl : ∀ l ∈ diffLines secs, '\n' ∉ l.data := by
    intro l hl
    unfold diffLines at hl
    rw [List.mem_flatMap] at hl
    obtain ⟨sec', hsec', hl'⟩ := hl
    obtain ⟨_, hhnl, hhunks⟩ := hsec sec' hsec'
    unfold sectionLines at hl'
    rcases List.mem_cons.mp hl' with he | he
    · exact he ▸ hhnl
    · rw [List.mem_flatMap] at he
      obtain ⟨hk, hhk, hlk⟩ := he
      obtain ⟨_, _, hknl, _, hbody⟩ := hhunks hk hhk
      unfold hunkLines at hlk
      rcases List.mem_cons.mp hlk with he2 | he2
      · exact he2 ▸ hknl
      · exact (hbody l he2).2
  unfold parseDiffValidLines
  rw [splitLines_strJoin _ hne hnl]
  obtain ⟨cf, nl, ihk, htop⟩ := topFold secs
    { result := [], currentFile := none, newLine := 0, inHunk := false }
    (fun s hs =>
      ⟨(hsec s hs).1,
       fun hk hhk =>
        ⟨((hsec s hs).2.2 hk hhk).1,
         ((hsec s hs).2.2 hk hhk).2.2.2.1,
         fun l hl => (((hsec s hs).2.2 hk hhk).2.2.2.2 l hl).1⟩⟩)
    (by intro s hs; simp)
    hnd
  rw [htop]
  refine ⟨setOf sec, mapFold_get secs [] (by intro s hs; simp) hnd sec hmem, ?_⟩
  intro n
  unfold setOf
  rw [mem_foldl_add, mem_rangeList]
  simp

/-- Witness for claim C3: a one-file diff with the context-only hunk
`@@ -3,2 +3,2 @@` yields for f.ts a set whose members are exactly the
range 3..4. -/
theorem parseDiffValidLines_context_only_witness :
    ∃ s : LineSet,
      FileMap.get? (parseDiffValidLines (strJoin "\n" (diffLines
          [⟨"diff --git a/f.ts b/f.ts", "f.ts",
            [⟨"@@ -3,2 +3,2 @@", 3, 2, [" x", " y"]⟩]⟩]))) "f.ts" = some s ∧
      ∀ n : Nat, n ∈ s ↔
        ∃ hs ∈ [HunkSpec.mk "@@ -3,2 +3,2 @@" 3 2 [" x", " y"]],
          hs.start ≤ n ∧ n < hs.start + hs.count :=
  parseDiffValidLines_context_only
    [⟨"diff --git a/f.ts b/f.ts", "f.ts",
      [⟨"@@ -3,2 +3,2 @@", 3, 2, [" x", " y"]⟩]⟩]
    (by decide)
    (by
      intro sec hs
      rcases List.mem_singleton.mp hs with rfl
      refine ⟨by decide, by decide, ?_⟩
      intro hk hhk
      rcases List.mem_singleton.mp hhk with rfl
      exact ⟨by decide, by decide, by decide, by decide, by decide⟩)
    _ (List.mem_singleton.mpr rfl)

/-- Claim C7: the exclusion filter excludes a fragment whose path
contains a vendor/build/dependency directory name such as vendor or
node_modules as a full path component, and does not exclude a path that
merely contains such a name as a substring of a longer component, so
src/vendored-utils.ts is kept. (Settled against the spec-modelled
`filterDiffs`; see its doc comment.) -/
theorem filterDiffs_vendor_component :
    (∀ (fds : List FileDiff) (fd : FileDiff), fd ∈ fds →
      ("vendor" ∈ pathComponents fd.file ∨ "node_modules" ∈ pathComponents fd.file) →
      fd.file ∈ (filterDiffs fds).excluded) ∧
    (filterDiffs [⟨"src/vendored-utils.ts",
        "diff --git a/src/vendored-utils.ts b/src/vendored-utils.ts\n+code"⟩]).included.map
        FileDiff.file = ["src/vendored-utils.ts"] := by
  constructor
  · intro fds fd hmem hv
    have hexc : isExcludedFragment fd = true := by
      unfold isExcludedFragment
      have hany : (pathComponents fd.file).any
          (fun c => vendorDirNames.any (fun d => c = d)) = true := by
        rcases hv with h | h
        · exact List.any_eq_true.mpr ⟨"vendor", h, by decide⟩
        · exact List.any_eq_true.mpr ⟨"node_modules", h, by decide⟩
      rw [hany]
      simp
    show fd.file ∈ (fds.filter (fun fd => isExcludedFragment fd)).map FileDiff.file
    exact List.mem_map_of_mem _ (List.mem_filter.mpr ⟨hmem, hexc⟩)
  · decide

/-- Witness for claim C7: a nested vendor directory component is excluded. -/
theorem filterDiffs_vendor_component_witness :
    "backend/vendor/lib/conn.go" ∈
      (filterDiffs [⟨"backend/vendor/lib/conn.go",
        "diff --git a/backend/vendor/lib/conn.go b/backend/vendor/lib/conn.go\n+c"⟩]).excluded :=
  filterDiffs_vendor_component.1 _ _ (List.mem_singleton.mpr rfl)
    (Or.inl (by decide))

end PrReviewer
